import Mathlib

/-
Verification of the OpenVoice backend audio pipeline against its design
specification.

The development shallowly embeds the algorithmic core of
`backend/utils/audio_processor.py` (chunk planning, crossfaded chunk
merging, the gain/clip stage, model-initialization retry, save fallback)
and `backend/utils/file_cleanup.py` (per-file deletion and retention
arithmetic).  Audio samples are modelled as rationals, machine floats
being replaced by exact arithmetic; filesystem and external-model
effects are modelled by explicit oracle parameters.
-/

namespace OpenVoice

/-! ## Chunk planning (`AudioProcessor.enhance_audio`, lines 162-188)

The Python while-loop walks `start` over the input, emitting windows
`[start, end)` with `end = min(start + C, total)` and stepping
`start = end - overlap` (or `end` when `overlap = 0`).  The loop's
overlap is clamped beforehand: `overlap = min(chunk_overlap_samples,
max_chunk_samples // 4)`.  We embed it with explicit fuel (the input
length bounds the iteration count, which we prove below). -/

/-- One window per entry: `(start, end)` half-open sample ranges, produced
exactly as the Python `while start < total_len` loop does. -/
def planLoop (C total overlap : ℕ) : ℕ → ℕ → List (ℕ × ℕ)
  | 0, _ => []
  | fuel + 1, start =>
    if start < total then
      let e := min (start + C) total
      if total ≤ e then [(start, e)]
      else
        (start, e) :: planLoop C total overlap fuel (if 0 < overlap then e - overlap else e)
    else []

/-- The chunk plan for an input of `N` samples, max chunk size `C` and
configured overlap `O`: the loop with the code's clamp
`overlap = min(O, C // 4)`, started at 0 with fuel `N`. -/
def planChunks (N C O : ℕ) : List (ℕ × ℕ) :=
  planLoop C N (min O (C / 4)) N 0

/-! ## Chunk merging (`AudioProcessor._merge_chunks`, lines 230-263) -/

/-- `min(len(c) for c in chunks)` over a nonempty list (0 for the empty
list, which the code never reaches on this path). -/
def minLenOf : List (List ℚ) → ℕ
  | [] => 0
  | c :: rest => (rest.map List.length).foldr min c.length

/-- Line 239: `safe_overlap = min(overlap_samples, min(len(c) for c in chunks) // 2)`.
`overlap_samples` is an `int`; on the branch where this is evaluated it is
positive, so `Int.toNat` is faithful. -/
def safeOverlap (chunks : List (List ℚ)) (overlapSamples : ℤ) : ℕ :=
  min overlapSamples.toNat (minLenOf chunks / 2)

/-- `np.linspace(0, 1, n)[i]`: the linear fade-in weight, `i/(n-1)` for
`n ≥ 2`, and `0` for `n ≤ 1` (numpy returns `[0.]` for `n = 1`). -/
def fadeWeight (n i : ℕ) : ℚ :=
  if n ≤ 1 then 0 else (i : ℚ) / ((n : ℚ) - 1)

/-- Line 256: `prev * fade_out + cur * fade_in`, elementwise over the
overlap region (`fade_out = 1 - fade_in`). -/
def crossfade (n : ℕ) (prev cur : List ℚ) : List ℚ :=
  (List.zip prev cur).enum.map
    (fun p => p.2.1 * (1 - fadeWeight n p.1) + p.2.2 * fadeWeight n p.1)

/-- One iteration of the merge loop body (lines 244-261) acting on the
already-written output `acc`: blend the last `so` written samples with the
incoming chunk's first `so` samples, then append the chunk's remainder. -/
def mergeStep (so : ℕ) (acc c : List ℚ) : List ℚ :=
  acc.take (acc.length - so) ++
    crossfade so (acc.drop (acc.length - so)) (c.take so) ++ c.drop so

/-- `AudioProcessor._merge_chunks`: empty input yields an empty buffer;
a single chunk or non-positive overlap yields plain concatenation;
otherwise the first chunk is copied and every later chunk is folded in
with `mergeStep` at the globally clamped `safe_overlap`. -/
def mergeChunks (chunks : List (List ℚ)) (overlapSamples : ℤ) : List ℚ :=
  match chunks with
  | [] => []
  | c :: rest =>
    if rest = [] ∨ overlapSamples ≤ 0 then
      (c :: rest).foldr (fun a b => a ++ b) []
    else
      rest.foldl (mergeStep (safeOverlap (c :: rest) overlapSamples)) c

/-- Canonical segment decomposition of the merge output: emit the
accumulated buffer minus its trailing `so` samples, crossfade those
against the next chunk's head, and continue with the blended region plus
the chunk's remainder.  Every sample outside a crossfaded boundary
region is passed through unmodified; `mergeChunks` is proved equal to
this decomposition below. -/
def mergeSegs (so : ℕ) : List ℚ → List (List ℚ) → List ℚ
  | prev, [] => prev
  | prev, c :: cs =>
    prev.take (prev.length - so) ++
      mergeSegs so
        (crossfade so (prev.drop (prev.length - so)) (c.take so) ++ c.drop so) cs

/-! ## Gain stage (`AudioProcessor.enhance_audio`, lines 192-197) -/

/-- `np.clip(x, -1.0, 1.0)` on one sample. -/
def clip1 (x : ℚ) : ℚ := max (-1) (min 1 x)

/-- Lines 192-197: when the resolved gain (dB) is non-zero, multiply every
sample by `10 ** (gain_db / 20)` and clip to `[-1, 1]`; otherwise the
buffer is returned untouched.  The transcendental factor is not a
rational, so it is passed explicitly as `factor`; every theorem below is
universally quantified over it. -/
def applyGain (buf : List ℚ) (gainDb factor : ℚ) : List ℚ :=
  if gainDb = 0 then buf else buf.map (fun x => clip1 (x * factor))

/-! ## Model initialization retry (`AudioProcessor.initialize`, lines 49-83)

The external loader `init_df` is modelled by an oracle giving the result
of each attempt: success, a raised exception, or a `SystemExit` signal
(which the code converts into a retryable `RuntimeError`).  The embedding
records how many attempts were made, the slept backoffs (`2 ** attempt`
after every failed attempt), and the final outcome. -/

/-- Outcome of one `init_df()` call. -/
inductive InitAttempt where
  | success : InitAttempt
  | failure : String → InitAttempt
  | sysExit : String → InitAttempt
deriving DecidableEq

/-- Observable result of `AudioProcessor.initialize`: attempts made,
backoff sleeps performed, and either success or the single raised error. -/
structure InitResult where
  attempts : ℕ
  sleeps : List ℕ
  outcome : Except String Unit

/-- The `for attempt in range(3)` retry loop, with `r` attempts remaining
and `i` the current attempt index; `lastErr` is Python's `last_err` and
`sl` the sleeps performed so far. -/
def initGo (oracle : ℕ → InitAttempt) : ℕ → ℕ → Option String → List ℕ → InitResult
  | 0, i, lastErr, sl =>
    ⟨i, sl,
      Except.error ("Failed to initialize DeepFilterNet after retries: " ++ lastErr.getD "None")⟩
  | r + 1, i, _lastErr, sl =>
    match oracle i with
    | InitAttempt.success => ⟨i + 1, sl, Except.ok ()⟩
    | InitAttempt.failure m => initGo oracle r (i + 1) (some m) (sl ++ [2 ^ i])
    | InitAttempt.sysExit m =>
      initGo oracle r (i + 1)
        (some ("DeepFilterNet init aborted (SystemExit): " ++ m)) (sl ++ [2 ^ i])

/-- `AudioProcessor.initialize` on a fresh instance: run the 3-attempt
loop; the outer `except Exception` re-wraps the loop's failure in the
final `RuntimeError`, preserving the message. -/
def modelInit (oracle : ℕ → InitAttempt) : InitResult :=
  let r := initGo oracle 3 0 none []
  match r.outcome with
  | Except.ok _ => r
  | Except.error m =>
    ⟨r.attempts, r.sleeps, Except.error ("Failed to initialize audio processing model: " ++ m)⟩

/-- Concrete failure oracle for exercising the retry loop: two raised
exceptions followed by the `SystemExit` abort signal. -/
def c6Oracle : ℕ → InitAttempt :=
  fun i =>
    if i = 0 then InitAttempt.failure "503 from model host"
    else if i = 1 then InitAttempt.failure "connection reset"
    else InitAttempt.sysExit "download aborted"

/-! ## Saving with container fallback (`AudioProcessor.save_audio`,
lines 265-305, and `process_file`, lines 307-355)

Paths are modelled as stem/extension pairs (`Path.with_suffix(".wav")`
replaces the extension).  The `pydub` conversion attempt is an oracle:
either it writes the target file with some size (0 models an empty file)
or it raises.  `process_file` reports the path `save_audio` actually
returned and stats that same path for the size. -/

/-- Python's `str.lower()` on a short ASCII extension: characterwise
lowercase over the string's character data. -/
def strLower (s : String) : String := ⟨s.data.map Char.toLower⟩

/-- A filesystem path split into stem and extension (as `Path.suffix`). -/
structure FPath where
  stem : String
  ext : String
deriving DecidableEq

/-- `Path.with_suffix(".wav")`. -/
def withSuffixWav (p : FPath) : FPath := ⟨p.stem, ".wav"⟩

/-- Outcome of the `pydub` conversion attempt: the size of the file it
produced, or the exception it raised. -/
inductive ConvResult where
  | converted : ℕ → ConvResult
  | raised : String → ConvResult
deriving DecidableEq

/-- `AudioProcessor.save_audio`: a WAV is always written first (at the
target when it is already `.wav`, else at the target with suffix
`.wav`); when the requested extension differs and is nonempty, the
conversion is attempted and its product kept only if nonempty, otherwise
the WAV path is returned. -/
def saveAudio (target : FPath) (conv : ConvResult) : FPath :=
  let targetExt := strLower target.ext
  let wavPath := if targetExt = ".wav" then target else withSuffixWav target
  if targetExt ≠ "" ∧ targetExt ≠ ".wav" then
    match conv with
    | ConvResult.converted size => if 0 < size then target else wavPath
    | ConvResult.raised _ => wavPath
  else wavPath

/-- The output-reporting slice of `process_file`'s success result: the
path returned by `save_audio` and the size obtained by statting that
same path (`fileSize` models `Path.stat().st_size`). -/
def processFileOut (target : FPath) (conv : ConvResult) (fileSize : FPath → ℕ) : FPath × ℕ :=
  let fin := saveAudio target conv
  (fin, fileSize fin)

/-! ## Explicit file deletion (`FileCleanupManager.delete_file`, lines 52-62)

The function is a total `Bool`: every exception from `unlink` is caught
by the `except` clause and converted to `False`, so "never raises" is
expressed by totality of the embedding.  `ex` is `path.exists()`, `isf`
is `path.is_file()`, and `unlinkOk` records whether `unlink()` succeeded
(when it raises, the `return True` line is never reached). -/
def deleteFile (ex isf unlinkOk : Bool) : Bool :=
  if ex && isf then (if unlinkOk then true else false) else false

/-! ## Retention arithmetic (`FileCleanupManager`, lines 64-76) -/

/-- Python `int(_)` on a real quantity: truncation toward zero. -/
def pyInt (q : ℚ) : ℤ := if 0 ≤ q then ⌊q⌋ else -⌊-q⌋

/-- `get_file_age_seconds`: `now - mtime` for an existing file, `0`
otherwise. -/
def fileAgeSeconds (ex : Bool) (now mtime : ℚ) : ℚ :=
  if ex then now - mtime else 0

/-- `get_time_until_deletion`: `max(0, int(retention_seconds - age))`. -/
def timeUntilDeletion (retention : ℤ) (ex : Bool) (now mtime : ℚ) : ℤ :=
  max 0 (pyInt ((retention : ℚ) - fileAgeSeconds ex now mtime))

/-! ## Invariants of the chunk-planning loop -/

lemma planLoop_spec (C total overlap : ℕ) (hC : 0 < C) (hov : overlap < C) :
    ∀ fuel start, start < total → total - start ≤ fuel →
      planLoop C total overlap fuel start ≠ [] ∧
      (planLoop C total overlap fuel start).head? = some (start, min (start + C) total) ∧
      ((planLoop C total overlap fuel start).map (fun w => w.2 - w.1)).sum
        = (total - start) + overlap * ((planLoop C total overlap fuel start).length - 1) ∧
      (∀ w ∈ planLoop C total overlap fuel start, w.1 < w.2 ∧ w.2 ≤ total ∧ w.2 - w.1 ≤ C) ∧
      (∀ w ∈ (planLoop C total overlap fuel start).dropLast, w.2 - w.1 = C) ∧
      List.Chain' (fun a b => a.1 < b.1) (planLoop C total overlap fuel start) ∧
      (∃ s, (planLoop C total overlap fuel start).getLast? = some (s, total)) ∧
      (planLoop C total overlap fuel start).length ≤ total - start := by
  intro fuel
  induction fuel with
  | zero => intro start h1 h2; omega
  | succ fuel ih =>
    intro start h1 h2
    by_cases he : total ≤ min (start + C) total
    · -- final window: start + C reaches total
      have hmin : min (start + C) total = total := le_antisymm (min_le_right _ _) he
      have hws : planLoop C total overlap (fuel + 1) start = [(start, total)] := by
        simp only [planLoop, if_pos h1, hmin, if_pos le_rfl]
      rw [hws, hmin]
      refine ⟨by simp, by simp, by simp, ?_, by simp, by simp, ⟨start, by simp⟩, by simp; omega⟩
      intro w hw
      simp at hw
      subst hw
      refine ⟨h1, le_rfl, ?_⟩
      have hts : total ≤ start + C := le_trans he (min_le_left _ _)
      omega
    · -- intermediate window of full length C
      push_neg at he
      have hlt : start + C < total := by
        rcases le_or_lt total (start + C) with h | h
        · simp [min_eq_right (le_of_lt (lt_of_le_of_lt h (by omega)))] at he
          omega
        · exact h
      have hmin : min (start + C) total = start + C := min_eq_left (le_of_lt hlt)
      have hstep : (if 0 < overlap then start + C - overlap else start + C)
          = start + C - overlap := by
        by_cases hoz : 0 < overlap
        · rw [if_pos hoz]
        · rw [if_neg hoz]; omega
      have hws : planLoop C total overlap (fuel + 1) start
          = (start, start + C) :: planLoop C total overlap fuel (start + C - overlap) := by
        simp only [planLoop, if_pos h1, hmin, if_neg (by omega : ¬ total ≤ start + C), hstep]
      have h1' : start + C - overlap < total := by omega
      have h2' : total - (start + C - overlap) ≤ fuel := by omega
      obtain ⟨hne', hhead', hsum', hwin', hdl', hch', ⟨s', hlast'⟩, hlen'⟩ :=
        ih (start + C - overlap) h1' h2'
      obtain ⟨a, ws'', hws''⟩ := List.exists_cons_of_ne_nil hne'
      rw [hws]
      refine ⟨by simp, by simp [hmin], ?_, ?_, ?_, ?_, ?_, ?_⟩
      · -- sum of window lengths
        rw [hws''] at hsum' ⊢
        rw [List.map_cons, List.sum_cons]
        simp only [List.length_cons, Nat.add_sub_cancel] at hsum' ⊢
        rw [hsum', Nat.mul_add, Nat.mul_one]
        generalize overlap * ws''.length = m at *
        omega
      · intro w hw
        rcases List.mem_cons.mp hw with h | h
        · subst h; exact ⟨by omega, by omega, by omega⟩
        · exact hwin' w h
      · rw [List.dropLast_cons_of_ne_nil hne']
        intro w hw
        rcases List.mem_cons.mp hw with h | h
        · subst h; omega
        · exact hdl' w h
      · rw [List.chain'_cons']
        refine ⟨?_, hch'⟩
        intro b hb
        rw [hhead'] at hb
        simp at hb
        subst hb
        simp
        omega
      · refine ⟨s', ?_⟩
        rw [hws''] at hlast' ⊢
        rw [List.getLast?_cons_cons]
        exact hlast'
      · simp only [List.length_cons]
        omega

/-! ## Invariants of the chunk merge -/

lemma foldr_min_le_base (xs : List ℕ) (b : ℕ) : xs.foldr min b ≤ b := by
  induction xs with
  | nil => simp
  | cons x xs ih =>
    simp only [List.foldr_cons]
    exact le_trans (min_le_right x _) ih

lemma foldr_min_le_mem (xs : List ℕ) (b : ℕ) : ∀ x ∈ xs, xs.foldr min b ≤ x := by
  induction xs with
  | nil => simp
  | cons y ys ih =>
    intro x hx
    rcases List.mem_cons.mp hx with h | h
    · subst h
      simp only [List.foldr_cons]
      exact min_le_left x _
    · simp only [List.foldr_cons]
      exact le_trans (min_le_right y _) (ih x h)

lemma le_foldr_min (xs : List ℕ) (b m : ℕ) (hb : m ≤ b) (h : ∀ x ∈ xs, m ≤ x) :
    m ≤ xs.foldr min b := by
  induction xs with
  | nil => exact hb
  | cons x xs ih =>
    simp only [List.foldr_cons]
    exact le_min (h x (by simp)) (ih (fun y hy => h y (List.mem_cons_of_mem x hy)))

lemma minLenOf_le_head (c : List ℚ) (rest : List (List ℚ)) :
    minLenOf (c :: rest) ≤ c.length :=
  foldr_min_le_base _ _

lemma minLenOf_le_mem (c : List ℚ) (rest : List (List ℚ)) :
    ∀ d ∈ rest, minLenOf (c :: rest) ≤ d.length := by
  intro d hd
  exact foldr_min_le_mem _ _ d.length (List.mem_map_of_mem List.length hd)

lemma le_minLenOf (c : List ℚ) (rest : List (List ℚ)) (m : ℕ)
    (hc : m ≤ c.length) (hr : ∀ d ∈ rest, m ≤ d.length) : m ≤ minLenOf (c :: rest) := by
  refine le_foldr_min _ _ _ hc ?_
  intro x hx
  obtain ⟨d, hd, rfl⟩ := List.mem_map.mp hx
  exact hr d hd

lemma crossfade_length (n : ℕ) (p c : List ℚ) :
    (crossfade n p c).length = min p.length c.length := by
  simp [crossfade]

lemma mergeStep_length (so : ℕ) (acc c : List ℚ)
    (h1 : so ≤ acc.length) (h2 : so ≤ c.length) :
    (mergeStep so acc c).length = acc.length + c.length - so := by
  simp [mergeStep, crossfade_length]
  omega

lemma mul_length_le_sum (xs : List ℕ) (m : ℕ) (h : ∀ x ∈ xs, m ≤ x) :
    m * xs.length ≤ xs.sum := by
  induction xs with
  | nil => simp
  | cons x xs ih =>
    simp only [List.length_cons, List.sum_cons, Nat.mul_add, Nat.mul_one]
    have hx := h x (by simp)
    have := ih (fun y hy => h y (List.mem_cons_of_mem x hy))
    omega

lemma foldl_mergeStep_length (so : ℕ) :
    ∀ (rest : List (List ℚ)) (acc : List ℚ),
      so ≤ acc.length → (∀ c ∈ rest, so ≤ c.length) →
      (rest.foldl (mergeStep so) acc).length
        = acc.length + (rest.map List.length).sum - so * rest.length := by
  intro rest
  induction rest with
  | nil => intro acc h1 h2; simp
  | cons c cs ih =>
    intro acc h1 h2
    have hc : so ≤ c.length := h2 c (by simp)
    have hcs : ∀ d ∈ cs, so ≤ d.length := fun d hd => h2 d (List.mem_cons_of_mem c hd)
    have hstep : (mergeStep so acc c).length = acc.length + c.length - so :=
      mergeStep_length so acc c h1 hc
    have hstep_ge : so ≤ (mergeStep so acc c).length := by omega
    have := ih (mergeStep so acc c) hstep_ge hcs
    rw [List.foldl_cons, this, hstep]
    simp only [List.map_cons, List.sum_cons, List.length_cons, Nat.mul_add, Nat.mul_one]
    have hsum := mul_length_le_sum (cs.map List.length) so
      (by intro x hx; obtain ⟨d, hd, rfl⟩ := List.mem_map.mp hx; exact hcs d hd)
    simp only [List.length_map] at hsum
    generalize so * cs.length = m at *
    omega

lemma safeOverlap_le_lens (c : List ℚ) (rest : List (List ℚ)) (o : ℤ) :
    2 * safeOverlap (c :: rest) o ≤ minLenOf (c :: rest) := by
  have h2 : safeOverlap (c :: rest) o ≤ minLenOf (c :: rest) / 2 := min_le_right _ _
  omega

lemma mergeChunks_length (c : List ℚ) (rest : List (List ℚ)) (o : ℤ) (ho : 0 < o) :
    (mergeChunks (c :: rest) o).length
      = ((c :: rest).map List.length).sum - safeOverlap (c :: rest) o * rest.length := by
  rcases rest with _ | ⟨d, rest'⟩
  · simp [mergeChunks]
  · have hso2 := safeOverlap_le_lens c (d :: rest') o
    have hhead := minLenOf_le_head c (d :: rest')
    have hmem := minLenOf_le_mem c (d :: rest')
    have hne : ¬ ((d :: rest') = [] ∨ o ≤ 0) := by
      push_neg
      exact ⟨by simp, ho⟩
    rw [mergeChunks, if_neg hne]
    rw [foldl_mergeStep_length _ _ _ (by omega)
      (fun x hx => by have := hmem x hx; omega)]
    simp [List.map_cons, List.sum_cons]

lemma mergeStep_append (so : ℕ) (a b c : List ℚ) (hb : so ≤ b.length) :
    mergeStep so (a ++ b) c = a ++ mergeStep so b c := by
  have hlen : (a ++ b).length - so = a.length + (b.length - so) := by
    simp [List.length_append]
    omega
  rw [mergeStep, mergeStep, hlen]
  rw [List.take_append_eq_append_take, List.drop_append_eq_append_drop]
  have h1 : a.length + (b.length - so) - a.length = b.length - so := by omega
  rw [List.take_of_length_le (by omega), h1]
  rw [List.drop_eq_nil_of_le (by omega : a.length ≤ a.length + (b.length - so))]
  simp [List.append_assoc]

lemma foldl_mergeStep_append (so : ℕ) :
    ∀ (cs : List (List ℚ)) (a b : List ℚ), so ≤ b.length →
      (∀ c ∈ cs, 2 * so ≤ c.length) →
      cs.foldl (mergeStep so) (a ++ b) = a ++ cs.foldl (mergeStep so) b := by
  intro cs
  induction cs with
  | nil => intro a b hb hc; simp
  | cons c cs ih =>
    intro a b hb hc
    have hc1 : 2 * so ≤ c.length := hc c (by simp)
    have hcs : ∀ d ∈ cs, 2 * so ≤ d.length := fun d hd => hc d (List.mem_cons_of_mem c hd)
    rw [List.foldl_cons, List.foldl_cons, mergeStep_append so a b c hb]
    exact ih a (mergeStep so b c)
      (by rw [mergeStep_length so b c hb (by omega)]; omega) hcs

lemma crossfade_length_eq (so : ℕ) (prev c : List ℚ)
    (hp : so ≤ prev.length) (hc : so ≤ c.length) :
    (crossfade so (prev.drop (prev.length - so)) (c.take so)).length = so := by
  rw [crossfade_length]
  simp
  omega

lemma foldl_eq_mergeSegs (so : ℕ) :
    ∀ (cs : List (List ℚ)) (prev : List ℚ), so ≤ prev.length →
      (∀ c ∈ cs, 2 * so ≤ c.length) →
      cs.foldl (mergeStep so) prev = mergeSegs so prev cs := by
  intro cs
  induction cs with
  | nil => intro prev hp hc; simp [mergeSegs]
  | cons c cs ih =>
    intro prev hp hc
    have hc1 : 2 * so ≤ c.length := hc c (by simp)
    have hcs : ∀ d ∈ cs, 2 * so ≤ d.length := fun d hd => hc d (List.mem_cons_of_mem c hd)
    have hcf : (crossfade so (prev.drop (prev.length - so)) (c.take so)).length = so :=
      crossfade_length_eq so prev c hp (by omega)
    rw [List.foldl_cons, mergeSegs]
    have hstep : mergeStep so prev c
        = prev.take (prev.length - so) ++
            (crossfade so (prev.drop (prev.length - so)) (c.take so) ++ c.drop so) := by
      rw [mergeStep, List.append_assoc]
    rw [hstep]
    rw [foldl_mergeStep_append so cs _ _ (by rw [List.length_append, hcf]; omega) hcs]
    rw [ih _ (by rw [List.length_append, hcf]; omega) hcs]

/-! ## Initialization retry invariants -/

lemma initGo_attempts_le (oracle : ℕ → InitAttempt) :
    ∀ (r i : ℕ) (lastErr : Option String) (sl : List ℕ),
      (initGo oracle r i lastErr sl).attempts ≤ i + r := by
  intro r
  induction r with
  | zero => intro i lastErr sl; simp [initGo]
  | succ r ih =>
    intro i lastErr sl
    rw [initGo]
    cases h : oracle i with
    | success => simp
    | failure m =>
      have h2 := ih (i + 1) (some m) (sl ++ [2 ^ i])
      show (initGo oracle r (i + 1) (some m) (sl ++ [2 ^ i])).attempts ≤ i + (r + 1)
      omega
    | sysExit m =>
      have h2 := ih (i + 1)
        (some ("DeepFilterNet init aborted (SystemExit): " ++ m)) (sl ++ [2 ^ i])
      show (initGo oracle r (i + 1)
        (some ("DeepFilterNet init aborted (SystemExit): " ++ m)) (sl ++ [2 ^ i])).attempts
          ≤ i + (r + 1)
      omega

lemma pow_range_shift (i r : ℕ) :
    (List.range (r + 1)).map (fun j => 2 ^ (i + j))
      = 2 ^ i :: (List.range r).map (fun j => 2 ^ (i + 1 + j)) := by
  rw [List.range_succ_eq_map, List.map_cons, List.map_map]
  have hf : ((fun j => 2 ^ (i + j)) ∘ Nat.succ) = (fun j => 2 ^ (i + 1 + j)) := by
    funext j
    simp only [Function.comp]
    congr 1
    omega
  rw [hf]
  norm_num

lemma initGo_all_fail (oracle : ℕ → InitAttempt) :
    ∀ (r i : ℕ) (lastErr : Option String) (sl : List ℕ),
      (∀ j, i ≤ j → j < i + r → oracle j ≠ InitAttempt.success) →
      ∃ m, initGo oracle r i lastErr sl
        = ⟨i + r, sl ++ (List.range r).map (fun j => 2 ^ (i + j)), Except.error m⟩ := by
  intro r
  induction r with
  | zero =>
    intro i lastErr sl h
    refine ⟨"Failed to initialize DeepFilterNet after retries: " ++ lastErr.getD "None", ?_⟩
    simp [initGo]
  | succ r ih =>
    intro i lastErr sl h
    have hne : oracle i ≠ InitAttempt.success := h i le_rfl (by omega)
    have hnext : ∀ j, i + 1 ≤ j → j < i + 1 + r → oracle j ≠ InitAttempt.success := by
      intro j hj1 hj2
      exact h j (by omega) (by omega)
    rw [initGo]
    cases horc : oracle i with
    | success => exact absurd horc hne
    | failure m =>
      obtain ⟨m', hm'⟩ := ih (i + 1) (some m) (sl ++ [2 ^ i]) hnext
      refine ⟨m', ?_⟩
      show initGo oracle r (i + 1) (some m) (sl ++ [2 ^ i])
          = ⟨i + (r + 1), sl ++ (List.range (r + 1)).map (fun j => 2 ^ (i + j)),
              Except.error m'⟩
      have e1 : i + (r + 1) = i + 1 + r := by omega
      have e2 : sl ++ (List.range (r + 1)).map (fun j => 2 ^ (i + j))
          = (sl ++ [2 ^ i]) ++ (List.range r).map (fun j => 2 ^ (i + 1 + j)) := by
        rw [pow_range_shift]
        simp
      rw [e1, e2]
      exact hm'
    | sysExit m =>
      obtain ⟨m', hm'⟩ := ih (i + 1)
        (some ("DeepFilterNet init aborted (SystemExit): " ++ m)) (sl ++ [2 ^ i]) hnext
      refine ⟨m', ?_⟩
      show initGo oracle r (i + 1)
            (some ("DeepFilterNet init aborted (SystemExit): " ++ m)) (sl ++ [2 ^ i])
          = ⟨i + (r + 1), sl ++ (List.range (r + 1)).map (fun j => 2 ^ (i + j)),
              Except.error m'⟩
      have e1 : i + (r + 1) = i + 1 + r := by omega
      have e2 : sl ++ (List.range (r + 1)).map (fun j => 2 ^ (i + j))
          = (sl ++ [2 ^ i]) ++ (List.range r).map (fun j => 2 ^ (i + 1 + j)) := by
        rw [pow_range_shift]
        simp
      rw [e1, e2]
      exact hm'

lemma initGo_first_success (oracle : ℕ → InitAttempt) :
    ∀ (r i : ℕ) (lastErr : Option String) (sl : List ℕ) (s : ℕ),
      i ≤ s → s < i + r → oracle s = InitAttempt.success →
      (∀ j, i ≤ j → j < s → oracle j ≠ InitAttempt.success) →
      (initGo oracle r i lastErr sl).attempts = s + 1 ∧
      (initGo oracle r i lastErr sl).outcome = Except.ok () := by
  intro r
  induction r with
  | zero =>
    intro i lastErr sl s h1 h2 hs hprev
    omega
  | succ r ih =>
    intro i lastErr sl s h1 h2 hs hprev
    by_cases hsi : s = i
    · subst hsi
      rw [initGo, hs]
      exact ⟨rfl, rfl⟩
    · have hlt : i < s := lt_of_le_of_ne h1 (Ne.symm hsi)
      have hne : oracle i ≠ InitAttempt.success := hprev i le_rfl hlt
      have hnext : ∀ j, i + 1 ≤ j → j < s → oracle j ≠ InitAttempt.success := by
        intro j hj1 hj2
        exact hprev j (by omega) hj2
      rw [initGo]
      cases horc : oracle i with
      | success => exact absurd horc hne
      | failure m =>
        exact ih (i + 1) (some m) (sl ++ [2 ^ i]) s (by omega) (by omega) hs hnext
      | sysExit m =>
        exact ih (i + 1) (some ("DeepFilterNet init aborted (SystemExit): " ++ m))
          (sl ++ [2 ^ i]) s (by omega) (by omega) hs hnext

lemma modelInit_attempts (oracle : ℕ → InitAttempt) :
    (modelInit oracle).attempts = (initGo oracle 3 0 none []).attempts := by
  cases h : (initGo oracle 3 0 none []).outcome <;> simp [modelInit, h]

lemma modelInit_sleeps (oracle : ℕ → InitAttempt) :
    (modelInit oracle).sleeps = (initGo oracle 3 0 none []).sleeps := by
  cases h : (initGo oracle 3 0 none []).outcome <;> simp [modelInit, h]

lemma modelInit_outcome_ok (oracle : ℕ → InitAttempt)
    (h : (initGo oracle 3 0 none []).outcome = Except.ok ()) :
    (modelInit oracle).outcome = Except.ok () := by
  simp [modelInit, h]

lemma modelInit_outcome_error (oracle : ℕ → InitAttempt) (m : String)
    (h : (initGo oracle 3 0 none []).outcome = Except.error m) :
    (modelInit oracle).outcome
      = Except.error ("Failed to initialize audio processing model: " ++ m) := by
  simp [modelInit, h]

/-! ## Retention helper -/

lemma pyInt_intCast (n : ℤ) : pyInt (n : ℚ) = n := by
  unfold pyInt
  by_cases h : (0 : ℚ) ≤ (n : ℚ)
  · rw [if_pos h, Int.floor_intCast]
  · rw [if_neg h]
    rw [show (-(n : ℚ)) = ((-n : ℤ) : ℚ) by push_cast; ring, Int.floor_intCast]
    ring

/-! ## Claims -/

/-- C9: for every overlap value (positive, zero or negative),
`_merge_chunks` on an empty chunk list returns the empty buffer rather
than raising: the `if not chunks` guard on line 232 fires first. -/
theorem c9_empty_merge : ∀ o : ℤ, mergeChunks [] o = [] := by
  intro o
  rfl

/-- C10: `delete_file` never raises (it is a total Boolean function of
the filesystem observations); it returns `True` exactly when the path is
an existing regular file whose `unlink` succeeds, and returns `False`
both for a missing/non-regular path and for a failing `unlink`, so the
two cases are indistinguishable by return value. -/
theorem c10_delete_file :
    ∀ ex isf unlinkOk : Bool,
      deleteFile ex isf unlinkOk = (ex && (isf && unlinkOk)) ∧
      deleteFile false isf unlinkOk = deleteFile true true false := by
  decide

/-- C5 counterexample: with gain `0` (a non-negative gain) the gain stage
is skipped (`if gain_db and gain_db != 0`), so a buffer holding the
sample `2` is returned unchanged and the output violates the claimed
`|x| ≤ 1` bound. -/
theorem c5_counterexample :
    applyGain [2] 0 1 = [2] ∧ (2 : ℚ) ∈ applyGain [2] 0 1 ∧ ¬ |(2 : ℚ)| ≤ 1 := by
  refine ⟨rfl, by simp [applyGain], by norm_num⟩

/-- C5 (amended): for every buffer and every NON-ZERO gain — the zero
gain bypasses the stage entirely — every sample of the gain stage's
output has absolute value at most 1, for any value of the multiplicative
factor `10 ** (gain_db / 20)`. -/
theorem c5_gain_clipped (buf : List ℚ) (gainDb factor : ℚ)
    (hg : gainDb ≠ 0) :
    ∀ x ∈ applyGain buf gainDb factor, |x| ≤ 1 := by
  intro x hx
  simp only [applyGain, if_neg hg, List.mem_map] at hx
  obtain ⟨y, -, rfl⟩ := hx
  have h1 : clip1 (y * factor) ≤ 1 := by
    unfold clip1
    apply max_le
    · norm_num
    · exact min_le_left _ _
  have h2 : (-1 : ℚ) ≤ clip1 (y * factor) := le_max_left _ _
  exact abs_le.mpr ⟨h2, h1⟩

/-- C5 witness: the amended theorem applied at the buffer `[2]`, gain
6 dB and factor 2 (the clipped sample is `1`). -/
theorem c5_gain_clipped_witness : |(1 : ℚ)| ≤ 1 := by
  have hmem : (1 : ℚ) ∈ applyGain [2] 6 2 := by
    simp [applyGain, clip1]
    norm_num
  exact c5_gain_clipped [2] 6 2 (by norm_num) 1 hmem

/-- C7: for every input length `N > 0`, chunk size `C > 0` and any
configured overlap `O` (including `O ≥ C`), the planned window starts
strictly increase (the loop clamps the overlap to `C // 4 < C`), the
plan is nonempty, its final window ends exactly at `N`, and the loop
makes at most `N` iterations — it terminates. -/
theorem c7_forward_progress (N C O : ℕ) (hN : 0 < N) (hC : 0 < C) :
    List.Chain' (fun a b => a.1 < b.1) (planChunks N C O) ∧
    planChunks N C O ≠ [] ∧
    (∃ s, (planChunks N C O).getLast? = some (s, N)) ∧
    (planChunks N C O).length ≤ N := by
  have hov : min O (C / 4) < C :=
    lt_of_le_of_lt (min_le_right _ _) (Nat.div_lt_self hC (by norm_num))
  obtain ⟨hne, hhead, hsum, hwin, hdl, hch, hlast, hlen⟩ :=
    planLoop_spec C N (min O (C / 4)) hC hov N 0 hN (by omega)
  exact ⟨hch, hne, hlast, by simpa using hlen⟩

/-- C7 witness: the theorem applied at `N = 10`, `C = 3` and the
degenerate overlap `O = 7 ≥ C`. -/
theorem c7_forward_progress_witness :
    List.Chain' (fun a b => a.1 < b.1) (planChunks 10 3 7) ∧
    planChunks 10 3 7 ≠ [] ∧
    (∃ s, (planChunks 10 3 7).getLast? = some (s, 10)) ∧
    (planChunks 10 3 7).length ≤ 10 :=
  c7_forward_progress 10 3 7 (by norm_num) (by norm_num)

/-- C2 counterexample: for a nonexistent path the age is reported as 0,
so `get_time_until_deletion` returns the full retention window (here
100 s), not the claimed 0. -/
theorem c2_counterexample :
    timeUntilDeletion 100 false 0 0 = 100 ∧ (100 : ℤ) ≠ 0 := by
  constructor
  · show max 0 (pyInt ((100 : ℤ) - fileAgeSeconds false 0 0)) = 100
    rw [show fileAgeSeconds false 0 0 = 0 from rfl, sub_zero, pyInt_intCast]
    norm_num
  · norm_num

/-- C2 (amended): `get_time_until_deletion` returns
`max(0, int(retention − age))` (with Python truncation toward zero) and
is never negative; for a fresh file (`mtime = now`) it equals the full
clamped retention window; but for a NONEXISTENT file the age is 0, so it
also returns the full retention window — not 0 as claimed. -/
theorem c2_time_until_deletion (retention : ℤ) (now mtime : ℚ) (ex : Bool) :
    0 ≤ timeUntilDeletion retention ex now mtime ∧
    (ex = true → timeUntilDeletion retention ex now mtime
        = max 0 (pyInt ((retention : ℚ) - (now - mtime)))) ∧
    (ex = false → timeUntilDeletion retention ex now mtime = max 0 retention) ∧
    (ex = true → now = mtime → timeUntilDeletion retention ex now mtime = max 0 retention) := by
  refine ⟨le_max_left 0 _, ?_, ?_, ?_⟩
  · intro hex
    subst hex
    rfl
  · intro hex
    subst hex
    show max 0 (pyInt ((retention : ℚ) - fileAgeSeconds false now mtime)) = max 0 retention
    rw [show fileAgeSeconds false now mtime = 0 from rfl, sub_zero, pyInt_intCast]
  · intro hex heq
    subst hex
    subst heq
    show max 0 (pyInt ((retention : ℚ) - fileAgeSeconds true now now)) = max 0 retention
    rw [show fileAgeSeconds true now now = now - now from rfl, sub_self, sub_zero, pyInt_intCast]

/-- C2 witness: the amended theorem applied at retention 100 s and a
fresh existing file (`now = mtime = 5`). -/
theorem c2_time_until_deletion_witness :
    timeUntilDeletion 100 true 5 5 = max 0 100 :=
  (c2_time_until_deletion 100 5 5 true).2.2.2 rfl rfl

/-- C1 counterexample: with `N = 4320000`, `C = 1440000`, `O = 2400` the
window loop produces FOUR windows — three of 1,440,000 samples and a
final short one of 7,200 samples — not the three claimed (stepping back
by the overlap leaves a 7,200-sample tail beyond three full windows). -/
theorem c1_counterexample :
    planChunks 4320000 1440000 2400
      = [(0, 1440000), (1437600, 2877600), (2875200, 4315200), (4312800, 4320000)] ∧
    (planChunks 4320000 1440000 2400).length ≠ 3 := by
  have h : planChunks 4320000 1440000 2400
      = [(0, 1440000), (1437600, 2877600), (2875200, 4315200), (4312800, 4320000)] := by
    decide
  refine ⟨h, ?_⟩
  rw [h]
  decide

/-- C1 (amended): the 90 s / 48 kHz example with 30 s chunks and 0.05 s
overlap yields exactly FOUR windows `[0,1440000)`, `[1437600,2877600)`,
`[2875200,4315200)`, `[4312800,4320000)` — consecutive windows
overlapping by 2,400 samples, the final one only 7,200 samples long —
and merging shape-preserved chunks of the planned lengths yields exactly
4,320,000 samples. -/
theorem c1_plan_and_merge :
    planChunks 4320000 1440000 2400
      = [(0, 1440000), (1437600, 2877600), (2875200, 4315200), (4312800, 4320000)] ∧
    ∀ chunks : List (List ℚ),
      chunks.map List.length
        = (planChunks 4320000 1440000 2400).map (fun w => w.2 - w.1) →
      (mergeChunks chunks 2400).length = 4320000 := by
  have h : planChunks 4320000 1440000 2400
      = [(0, 1440000), (1437600, 2877600), (2875200, 4315200), (4312800, 4320000)] := by
    decide
  refine ⟨h, ?_⟩
  intro chunks hchunks
  rw [h] at hchunks
  norm_num at hchunks
  rcases chunks with _ | ⟨c, rest⟩
  · simp at hchunks
  · obtain ⟨hc, hrest⟩ : c.length = 1440000 ∧ rest.map List.length = [1440000, 1440000, 7200] := by
      simpa using hchunks
    have hrl : rest.length = 3 := by
      have hcong := congrArg List.length hrest
      simpa using hcong
    rw [mergeChunks_length c rest 2400 (by norm_num)]
    rw [show (c :: rest).map List.length = c.length :: rest.map List.length from rfl]
    rw [hc, hrest, hrl]
    rw [show safeOverlap (c :: rest) 2400
        = min (Int.toNat 2400) ((rest.map List.length).foldr min c.length / 2) from rfl,
      hc, hrest]
    decide

/-- C3 counterexample: `N = 9`, `C = 8`, `O = 2` satisfies the claim's
constraints (`N > C > 0`, `0 < O ≤ C/4`), but the plan is
`[(0,8), (6,9)]` — a final chunk of only 3 samples — so the merge clamps
the crossfade to `min(2, 3 // 2) = 1` sample and returns 10 samples, not
`N = 9`. -/
theorem c3_counterexample :
    (8 < 9 ∧ 0 < 8 ∧ 0 < 2 ∧ 2 ≤ 8 / 4) ∧
    planChunks 9 8 2 = [(0, 8), (6, 9)] ∧
    (mergeChunks ((planChunks 9 8 2).map (fun w => List.replicate (w.2 - w.1) (0 : ℚ)))
      ((2 : ℕ) : ℤ)).length = 10 ∧
    (10 : ℕ) ≠ 9 := by
  refine ⟨by norm_num, by decide, by decide, by norm_num⟩

/-- C3 (amended): for `N > C > 0` and `0 < O ≤ C/4`, if every planned
window — equivalently the final one, all others having full length
`C ≥ 4·O` — is at least `2·O` samples long, then merging
shape-preserved chunks of the planned lengths yields exactly `N`
samples; without that proviso the safety clamp keeps part of the
duplicated overlap (see the counterexample). -/
theorem c3_chunk_merge_exact (N C O : ℕ) (hNC : C < N) (hC : 0 < C) (hO : 0 < O)
    (hO4 : O ≤ C / 4)
    (hlast : ∀ w ∈ planChunks N C O, 2 * O ≤ w.2 - w.1)
    (chunks : List (List ℚ))
    (hchunks : chunks.map List.length = (planChunks N C O).map (fun w => w.2 - w.1)) :
    (mergeChunks chunks ((O : ℕ) : ℤ)).length = N := by
  have hN : 0 < N := by omega
  have hclamp : min O (C / 4) = O := min_eq_left hO4
  have hOC : O < C := by
    have hd : C / 4 < C := Nat.div_lt_self hC (by norm_num)
    omega
  have hplan : planChunks N C O = planLoop C N O N 0 := by
    rw [planChunks, hclamp]
  obtain ⟨hne, hhead, hsum, hwin, hdl, hch, hlast', hlen⟩ :=
    planLoop_spec C N O hC hOC N 0 hN (by omega)
  rw [← hplan] at hne hsum
  rcases chunks with _ | ⟨c, rest⟩
  · exfalso
    apply hne
    have hmapnil : (planChunks N C O).map (fun w => w.2 - w.1) = [] := by
      rw [← hchunks]
      simp
    exact List.map_eq_nil_iff.mp hmapnil
  · have hlen_eq : rest.length + 1 = (planChunks N C O).length := by
      have hcong := congrArg List.length hchunks
      simpa using hcong
    have hall : ∀ d ∈ (c :: rest), 2 * O ≤ d.length := by
      intro d hd
      have hmem : d.length ∈ (c :: rest).map List.length := List.mem_map_of_mem _ hd
      rw [hchunks] at hmem
      obtain ⟨w, hw, hwl⟩ := List.mem_map.mp hmem
      rw [← hwl]
      exact hlast w hw
    have hminlen : 2 * O ≤ minLenOf (c :: rest) :=
      le_minLenOf c rest (2 * O) (hall c (by simp))
        (fun d hd => hall d (List.mem_cons_of_mem c hd))
    have hso : safeOverlap (c :: rest) ((O : ℕ) : ℤ) = O := by
      rw [safeOverlap]
      omega
    have hsum_chunks : ((c :: rest).map List.length).sum
        = N + O * ((planChunks N C O).length - 1) := by
      rw [hchunks]
      simpa using hsum
    rw [mergeChunks_length c rest ((O : ℕ) : ℤ) (by exact_mod_cast hO)]
    rw [hso, hsum_chunks, ← hlen_eq]
    simp only [Nat.add_sub_cancel]

/-- C3 witness: `N = 20`, `C = 8`, `O = 2` plans `[(0,8),(6,14),(12,20)]`
(final window of 8 ≥ 2·O samples), and merging replicate chunks of the
planned lengths yields exactly 20 samples. -/
theorem c3_chunk_merge_exact_witness :
    (mergeChunks ((planChunks 20 8 2).map (fun w => List.replicate (w.2 - w.1) (0 : ℚ)))
      ((2 : ℕ) : ℤ)).length = 20 := by
  have h5 : ∀ w ∈ planChunks 20 8 2, 2 * 2 ≤ w.2 - w.1 := by decide
  have h6 : ((planChunks 20 8 2).map (fun w => List.replicate (w.2 - w.1) (0 : ℚ))).map
      List.length = (planChunks 20 8 2).map (fun w => w.2 - w.1) := by
    simp [List.map_map, Function.comp, List.length_replicate]
  exact c3_chunk_merge_exact 20 8 2 (by norm_num) (by norm_num) (by norm_num) (by norm_num)
    h5 _ h6

/-- C4 counterexample: on chunks of lengths 10, 10 and 2 with nominal
overlap 4, the code uses one GLOBAL clamp
`safe_overlap = min(4, min(10,10,2) // 2) = 1` at every boundary and
returns 20 samples, whereas the claimed per-boundary formula
`overlap' = min(O, half the shorter adjacent chunk)` would give
`22 - (min(4,5) + min(4,1)) = 17`. -/
theorem c4_counterexample :
    (mergeChunks [List.replicate 10 (0 : ℚ), List.replicate 10 (0 : ℚ),
        List.replicate 2 (0 : ℚ)] 4).length = 20 ∧
    (10 + 10 + 2) - (min 4 (min 10 10 / 2) + min 4 (min 10 2 / 2)) = 17 ∧
    (20 : ℕ) ≠ 17 := by
  refine ⟨by decide, by decide, by norm_num⟩

/-- C4 (amended): for every nonempty chunk list and every positive
nominal overlap, `_merge_chunks` returns sum-of-lengths minus
`safe_overlap` times the number of boundaries, where `safe_overlap` is
the single global clamp `min(O, shortest chunk length // 2)` (the same
value at every boundary, not the claimed per-boundary adjacent-pair
clamp); and the output decomposes into the chunks' samples copied
unmodified outside the crossfaded boundary regions (`mergeSegs`). -/
theorem c4_merge_invariant (c : List ℚ) (rest : List (List ℚ)) (o : ℤ) (ho : 0 < o) :
    (mergeChunks (c :: rest) o).length
      = ((c :: rest).map List.length).sum - safeOverlap (c :: rest) o * rest.length ∧
    mergeChunks (c :: rest) o = mergeSegs (safeOverlap (c :: rest) o) c rest := by
  refine ⟨mergeChunks_length c rest o ho, ?_⟩
  rcases rest with _ | ⟨d, rest'⟩
  · simp [mergeChunks, mergeSegs]
  · have hso2 := safeOverlap_le_lens c (d :: rest') o
    have hhead := minLenOf_le_head c (d :: rest')
    have hmem := minLenOf_le_mem c (d :: rest')
    have hne : ¬ ((d :: rest') = [] ∨ o ≤ 0) := by
      push_neg
      exact ⟨by simp, ho⟩
    rw [mergeChunks, if_neg hne]
    apply foldl_eq_mergeSegs
    · omega
    · intro x hx
      have hx2 := hmem x hx
      omega

/-- C4 witness: the amended theorem applied to the two concrete chunks
`[1,1,1,1]` and `[2,2,2,2]` with nominal overlap 2. -/
theorem c4_merge_invariant_witness :
    (mergeChunks [[1, 1, 1, 1], [2, 2, 2, 2]] 2).length
      = (([[1, 1, 1, 1], [2, 2, 2, 2]] : List (List ℚ)).map List.length).sum
          - safeOverlap [[1, 1, 1, 1], [2, 2, 2, 2]] 2 * ([[2, 2, 2, 2]]
            : List (List ℚ)).length ∧
    mergeChunks [[1, 1, 1, 1], [2, 2, 2, 2]] 2
      = mergeSegs (safeOverlap [[1, 1, 1, 1], [2, 2, 2, 2]] 2) [1, 1, 1, 1] [[2, 2, 2, 2]] :=
  c4_merge_invariant [1, 1, 1, 1] [[2, 2, 2, 2]] 2 (by norm_num)

/-- C1 witness: the merged-length statement applied to concrete
shape-preserved chunks (all-zero buffers of the four planned lengths). -/
theorem c1_plan_and_merge_witness :
    (mergeChunks [List.replicate 1440000 (0 : ℚ), List.replicate 1440000 (0 : ℚ),
        List.replicate 1440000 (0 : ℚ), List.replicate 7200 (0 : ℚ)] 2400).length
      = 4320000 := by
  apply c1_plan_and_merge.2
  rw [c1_plan_and_merge.1]
  norm_num [List.length_replicate]

/-- C6: model initialization makes at most 3 attempts; when all three
fail — whether by raised exception or by the `SystemExit` abort signal,
which the loop catches and converts to a retryable error — the backoffs
are exactly 1 s, 2 s, 4 s and exactly one initialization error is raised
after the third attempt (no fourth attempt); if attempt `i` is the first
success, exactly `i + 1` attempts are made and no error is raised. -/
theorem c6_init_retry (oracle : ℕ → InitAttempt) :
    (modelInit oracle).attempts ≤ 3 ∧
    ((∀ i, i < 3 → oracle i ≠ InitAttempt.success) →
      (modelInit oracle).attempts = 3 ∧ (modelInit oracle).sleeps = [1, 2, 4] ∧
      ∃ m, (modelInit oracle).outcome = Except.error m) ∧
    (∀ i, i < 3 → oracle i = InitAttempt.success →
      (∀ j, j < i → oracle j ≠ InitAttempt.success) →
      (modelInit oracle).attempts = i + 1 ∧ (modelInit oracle).outcome = Except.ok ()) := by
  refine ⟨?_, ?_, ?_⟩
  · rw [modelInit_attempts]
    have hle := initGo_attempts_le oracle 3 0 none []
    omega
  · intro hfail
    obtain ⟨m, hm⟩ := initGo_all_fail oracle 3 0 none []
      (by intro j hj1 hj2; exact hfail j (by omega))
    have hout : (initGo oracle 3 0 none []).outcome = Except.error m := by rw [hm]
    refine ⟨?_, ?_, ?_⟩
    · rw [modelInit_attempts, hm]
    · rw [modelInit_sleeps, hm]
      show ([] : List ℕ) ++ (List.range 3).map (fun j => 2 ^ (0 + j)) = [1, 2, 4]
      decide
    · exact ⟨"Failed to initialize audio processing model: " ++ m,
        modelInit_outcome_error oracle m hout⟩
  · intro i hi hsucc hprev
    have hfs := initGo_first_success oracle 3 0 none [] i (by omega) (by omega) hsucc
      (by intro j hj1 hj2; exact hprev j hj2)
    exact ⟨by rw [modelInit_attempts]; exact hfs.1, modelInit_outcome_ok oracle hfs.2⟩

/-- C6 witness: the retry theorem applied to the oracle that raises
twice and then signals `SystemExit`: three attempts, sleeps 1 s, 2 s,
4 s, one error. -/
theorem c6_init_retry_witness :
    (modelInit c6Oracle).attempts = 3 ∧ (modelInit c6Oracle).sleeps = [1, 2, 4] ∧
    ∃ m, (modelInit c6Oracle).outcome = Except.error m :=
  (c6_init_retry c6Oracle).2.1 (by
    intro i hi
    interval_cases i <;> simp [c6Oracle])

/-- C8: whenever the requested container differs from `.wav` and the
conversion either raises or produces an empty file, `process_file`
reports the `.wav` fallback path that was actually written — never the
originally requested path — together with the size of that actually
written file. -/
theorem c8_fallback_path (target : FPath) (conv : ConvResult) (fileSize : FPath → ℕ)
    (hwav : strLower target.ext ≠ ".wav") (hempty : strLower target.ext ≠ "")
    (hconv : conv = ConvResult.converted 0 ∨ ∃ m, conv = ConvResult.raised m) :
    processFileOut target conv fileSize
      = (withSuffixWav target, fileSize (withSuffixWav target)) ∧
    withSuffixWav target ≠ target := by
  have hsave : saveAudio target conv = withSuffixWav target := by
    rcases hconv with rfl | ⟨m, rfl⟩ <;> simp [saveAudio, hwav, hempty]
  constructor
  · simp [processFileOut, hsave]
  · intro heq
    apply hwav
    have hext : target.ext = ".wav" := by
      have hcong := congrArg FPath.ext heq
      simpa [withSuffixWav] using hcong.symm
    rw [hext]
    decide

/-- C8 witness: the theorem applied to the request `enhanced.mp3` whose
conversion raises, with a filesystem reporting 42 bytes for the WAV. -/
theorem c8_fallback_path_witness :
    processFileOut ⟨"enhanced", ".mp3"⟩ (ConvResult.raised "ffmpeg missing") (fun _ => 42)
      = (withSuffixWav ⟨"enhanced", ".mp3"⟩, 42) ∧
    withSuffixWav ⟨"enhanced", ".mp3"⟩ ≠ (⟨"enhanced", ".mp3"⟩ : FPath) :=
  c8_fallback_path ⟨"enhanced", ".mp3"⟩ (ConvResult.raised "ffmpeg missing") (fun _ => 42)
    (by decide) (by decide) (Or.inr ⟨"ffmpeg missing", rfl⟩)

end OpenVoice
